import Mathlib

/-!
Shallow embedding of `src/volatile_memory.rs` (crate `vm-memory`): the
`VolatileSlice` view type, its overflow/bounds-checked offset arithmetic,
its `Bytes` operations (`read`/`write`/`read_slice`/`write_slice`/
`read_from`/`store`/`load`), the `VolatileArrayRef` typed copies, and the
`copy_slice_impl` volatile copy engine.

Machine integers are modelled as `Nat` with explicit bounds: `usize`
arithmetic that the code checks (`checked_add`, `checked_mul`,
`isize::try_from`) is embedded with explicit comparisons against
`USIZE_MAX` / `ISIZE_MAX`.  The target is 64-bit (`size_of::<usize>() == 8`),
matching the `if size_of::<usize>() > 4` branch of the copy engine.

Memory viewed by a slice is a byte list (`List Nat`, each element < 256 in
intended use); the copy engine, which works on raw addresses, uses a total
address-space model `Nat → Nat`.  The dirty-bitmap type is external to the
crate (only the `BitmapSlice` interface is consumed here), so, as recorded
on the definitions below, its composition law is modelled from the spec:
a handle is an absolute base offset, `slice_at` adds to it, and
`mark_dirty o l` records the absolute pair `(base + o, l)`.  Operations
return the list of `mark_dirty` events they emitted.
-/

namespace VmMemory

/-- `usize::MAX` on the 64-bit target. -/
def USIZE_MAX : Nat := 2 ^ 64 - 1

/-- `isize::MAX` on the 64-bit target. -/
def ISIZE_MAX : Nat := 2 ^ 63 - 1

/-- `volatile_memory::Error` (the spec calls `IOError` `IOFailure` and
`PartialBuffer` `PartialTransfer`).  The wrapped `io::Error` payload is
modelled as a numeric code. -/
inductive MError where
  | outOfBounds (addr : Nat)
  | overflow (base off : Nat)
  | tooBig (nelements size : Nat)
  | misaligned (addr alignment : Nat)
  | ioError (code : Nat)
  | partialBuffer (expected completed : Nat)
deriving DecidableEq, Repr

/-- `compute_offset(base, offset)`: checked `base + offset`, `Overflow` past
`usize::MAX`. -/
def compute_offset (base off : Nat) : Except MError Nat :=
  if base + off > USIZE_MAX then .error (.overflow base off) else .ok (base + off)

/-- Model of a `VolatileSlice<'a, B>`: the raw pointer value `addr`, the
viewed bytes `mem` (so `len = mem.length` plays the role of the `size`
field), and the dirty handle.  The handle field `bbase` is modelled from
the spec: an external `BitmapSlice` is opaque, characterised by
`slice_at(offset)` shifting its base and `mark_dirty(offset, len)`
recording `[base+offset, base+offset+len)`, so a handle is just its
absolute base offset. -/
structure VSlice where
  addr : Nat
  mem : List Nat
  bbase : Nat
deriving DecidableEq, Repr

/-- `VolatileSlice::len` (the `size` field). -/
def VSlice.len (s : VSlice) : Nat := s.mem.length

/-- `VolatileMemory::compute_end_offset(base, offset)`: checked sum, then
`OutOfBounds` when the end exceeds the region length. -/
def VSlice.compute_end_offset (s : VSlice) (base off : Nat) : Except MError Nat :=
  match compute_offset base off with
  | .error e => .error e
  | .ok memEnd => if memEnd > s.len then .error (.outOfBounds memEnd) else .ok memEnd

/-- `VolatileSlice::get_slice(offset, count)`: bounds-checked sub-view.  The
new pointer is `addr + offset`, the viewed bytes are the `count` bytes from
`offset`, and the dirty handle is re-derived via `slice_at(offset)`
(modelled from the spec as `bbase + offset`). -/
def VSlice.get_slice (s : VSlice) (off count : Nat) : Except MError VSlice :=
  match s.compute_end_offset off count with
  | .error e => .error e
  | .ok _ => .ok ⟨s.addr + off, (s.mem.drop off).take count, s.bbase + off⟩

/-- `VolatileSlice::subslice(offset, count)`: same checks and construction
as `get_slice`. -/
def VSlice.subslice (s : VSlice) (off count : Nat) : Except MError VSlice :=
  match s.compute_end_offset off count with
  | .error e => .error e
  | .ok _ => .ok ⟨s.addr + off, (s.mem.drop off).take count, s.bbase + off⟩

/-- `VolatileSlice::offset(count)`: checked pointer advance (`Overflow` on
`usize` wraparound of `addr + count`), checked size shrink (`OutOfBounds`
when `count > size`); handle re-derived via `slice_at(count)`. -/
def VSlice.offset (s : VSlice) (count : Nat) : Except MError VSlice :=
  if s.addr + count > USIZE_MAX then .error (.overflow s.addr count)
  else if count > s.len then .error (.outOfBounds (s.addr + count))
  else .ok ⟨s.addr + count, s.mem.drop count, s.bbase + count⟩

/-- `VolatileSlice::split_at(mid)`: `(first mid bytes, self.offset(mid))`;
the first half keeps the original handle (`bitmap.clone()`). -/
def VSlice.split_at (s : VSlice) (mid : Nat) : Except MError (VSlice × VSlice) :=
  match s.offset mid with
  | .error e => .error e
  | .ok tail => .ok (⟨s.addr, s.mem.take mid, s.bbase⟩, tail)

/-- Overwrite `bs` into `l` starting at position `pos` (the effect, proved
in `copy_slice_correct` below, of the copy engine writing `bs.length`
bytes at `pos` from a disjoint source). -/
def listOverwrite (l : List Nat) (pos : Nat) (bs : List Nat) : List Nat :=
  l.take pos ++ bs ++ l.drop (pos + bs.length)

/-- Result of a mutating slice operation: the slice's bytes afterwards, the
`mark_dirty` events emitted (absolute base, length), and the returned
value. -/
structure WResult where
  mem : List Nat
  marks : List (Nat × Nat)
  res : Except MError Nat
deriving Repr

/-- `Bytes::write for VolatileSlice`: empty buffer short-circuits to
`Ok(0)` before the bounds test; `addr >= size` is `OutOfBounds`; otherwise
`total = min(buf.len(), len - addr)` bytes are copied via `copy_slice`
(which returns `total`), the range `[addr, addr+total)` is marked dirty,
and `total` is returned. -/
def VSlice.write (s : VSlice) (buf : List Nat) (addr : Nat) : WResult :=
  if buf.length = 0 then ⟨s.mem, [], .ok 0⟩
  else if addr ≥ s.len then ⟨s.mem, [], .error (.outOfBounds addr)⟩
  else
    let total := min buf.length (s.len - addr)
    ⟨listOverwrite s.mem addr (buf.take total), [(s.bbase + addr, total)], .ok total⟩

/-- Result of `read`: the caller's buffer afterwards and the returned
value. -/
structure RResult where
  buf : List Nat
  res : Except MError Nat
deriving Repr

/-- `Bytes::read for VolatileSlice`: mirror image of `write` (no dirty
marks; the destination is the caller's buffer). -/
def VSlice.read (s : VSlice) (buf : List Nat) (addr : Nat) : RResult :=
  if buf.length = 0 then ⟨buf, .ok 0⟩
  else if addr ≥ s.len then ⟨buf, .error (.outOfBounds addr)⟩
  else
    let total := min buf.length (s.len - addr)
    ⟨listOverwrite buf 0 ((s.mem.drop addr).take total), .ok total⟩

/-- `Bytes::write_slice`: delegate to `write`, then `PartialBuffer` unless
all `buf.len()` bytes moved. -/
def VSlice.write_slice (s : VSlice) (buf : List Nat) (addr : Nat) : WResult :=
  let w := s.write buf addr
  match w.res with
  | .error e => ⟨w.mem, w.marks, .error e⟩
  | .ok len =>
      if len ≠ buf.length then ⟨w.mem, w.marks, .error (.partialBuffer buf.length len)⟩
      else ⟨w.mem, w.marks, .ok 0⟩

/-- `Bytes::read_slice`: delegate to `read`, then `PartialBuffer` unless
all `buf.len()` bytes moved. -/
def VSlice.read_slice (s : VSlice) (buf : List Nat) (addr : Nat) : RResult :=
  let r := s.read buf addr
  match r.res with
  | .error e => ⟨r.buf, .error e⟩
  | .ok len =>
      if len ≠ buf.length then ⟨r.buf, .error (.partialBuffer buf.length len)⟩
      else ⟨r.buf, .ok 0⟩

/-! ## The copy engine (`mod copy_slice_impl`) -/

/-- Raw address space for the copy engine: byte content at every address. -/
def Mem : Type := Nat → Nat

/-- The effect of copying `n` bytes from `src` to `dst` in one step (the
read happens in full before the write): semantics of
`ptr::copy_nonoverlapping(src, dst, n)`, and of a single volatile
load+store of an `n`-byte unit. -/
def byteCopy (dst src n : Nat) (mem : Mem) : Mem :=
  fun a => if dst ≤ a ∧ a < dst + n then mem (src + (a - dst)) else mem a

/-- `fn alignment(addr)`: `addr & (!addr + 1)` on `usize`, the largest
power of two `addr` is aligned to (`!addr + 1` is two's-complement
negation, wrapping to `0` for `addr = 0`). -/
def alignment (addr : Nat) : Nat := addr &&& ((2 ^ 64 - addr) % 2 ^ 64)

/-- `copy_single(align, src_addr, dst_addr)`: one volatile load+store of an
`align`-byte integer unit (`u64`/`u32`/`u16`/`u8`); any other `align` is
`unreachable!` in the source (modelled as no effect, never exercised). -/
def copy_single (align : Nat) (src dst : Nat) (mem : Mem) : Mem :=
  if align = 8 ∨ align = 4 ∨ align = 2 ∨ align = 1 then byteCopy dst src align mem
  else mem

/-- The mutable state threaded through `copy_slice_volatile`: the memory
and the `dst` / `src` cursors and remaining count `left` shared by the
`copy_aligned_slice` closure invocations. -/
structure CopyState where
  mem : Mem
  dst : Nat
  src : Nat
  left : Nat

/-- The `while left >= min_align` loop body of the `copy_aligned_slice`
closure: volatile-copy one `min_align` unit, shrink `left`, and advance
the cursors unless `left` hit `0` (the `break`).  The `min_align = 0`
guard is only for Lean's termination checker; the source calls this with
`8/4/2/1`. -/
def copyLoop (minAlign : Nat) (s : CopyState) : CopyState :=
  if _h : minAlign = 0 then s
  else if _hl : s.left < minAlign then s
  else if s.left - minAlign = 0 then
    ⟨copy_single minAlign s.src s.dst s.mem, s.dst, s.src, 0⟩
  else
    copyLoop minAlign ⟨copy_single minAlign s.src s.dst s.mem,
      s.dst + minAlign, s.src + minAlign, s.left - minAlign⟩
termination_by s.left
decreasing_by simp_wf; omega

/-- One invocation `copy_aligned_slice(min_align)`: early-return when the
common alignment is below the unit size, else run the loop. -/
def copy_aligned_slice (minAlign align : Nat) (s : CopyState) : CopyState :=
  if align < minAlign then s else copyLoop minAlign s

/-- `copy_slice_volatile(dst, src, total)`: compute the largest common
alignment of the two addresses, then greedily copy in descending unit
sizes 8 (the target is 64-bit, so `size_of::<usize>() > 4`), 4, 2, 1;
returns `total`. -/
def copy_slice_volatile (dst src total : Nat) (mem : Mem) : Mem × Nat :=
  let align := min (alignment src) (alignment dst)
  let s1 := copy_aligned_slice 8 align ⟨mem, dst, src, total⟩
  let s2 := copy_aligned_slice 4 align s1
  let s3 := copy_aligned_slice 2 align s2
  let s4 := copy_aligned_slice 1 align s3
  (s4.mem, total)

/-- `copy_slice(dst, src, total)`: at most one machine word (`total <= 8`)
goes through the volatile loop, larger totals through
`ptr::copy_nonoverlapping`; returns `total` either way. -/
def copy_slice (dst src total : Nat) (mem : Mem) : Mem × Nat :=
  if total ≤ 8 then ((copy_slice_volatile dst src total mem).1, total)
  else (byteCopy dst src total mem, total)

/-! ## External-reader staging (`read_from`) -/

/-- One outcome of a call to the external reader's `Read::read(&mut dst)`:
it deposits `bs` as a prefix of the staging buffer and returns
`Ok(bs.length)`, or fails interrupted, or fails with another I/O error. -/
inductive ReadOutcome where
  | ok (bs : List Nat)
  | interrupted
  | ioerr (code : Nat)
deriving DecidableEq, Repr

/-- The `loop { match src.read(&mut dst) ... }` retry loop: skip
`Interrupted` outcomes until the reader yields a result; `none` when the
script runs out (the real loop would keep calling the reader). -/
def runReader : List ReadOutcome → Option (Except Nat (List Nat))
  | [] => none
  | .interrupted :: rest => runReader rest
  | .ok bs :: _ => some (.ok bs)
  | .ioerr e :: _ => some (.error e)

/-- How a `read_from` run ends: a byte count, a typed error, the
`assert!(bytes_read <= count)` panic, or an unterminated retry loop. -/
inductive IOOutcome where
  | ok (n : Nat)
  | error (e : MError)
  | panicked
  | stuck
deriving DecidableEq, Repr

/-- Result of `read_from`: slice bytes afterwards, `mark_dirty` events,
and how the call ended. -/
structure IOResult where
  mem : List Nat
  marks : List (Nat × Nat)
  out : IOOutcome
deriving DecidableEq, Repr

/-- `Bytes::read_from(addr, src, count)`: bounds-check `[addr, addr+count)`
first; stage through `dst = vec![0; count]` handed to the external reader
with interrupted retries; on reader error propagate `IOError` with nothing
committed; `assert!(bytes_read <= count)`; then commit exactly
`bytes_read` bytes via `copy_slice` and mark them dirty. -/
def VSlice.read_from (s : VSlice) (addr : Nat) (rdr : List ReadOutcome) (count : Nat) :
    IOResult :=
  match s.compute_end_offset addr count with
  | .error e => ⟨s.mem, [], .error e⟩
  | .ok _ =>
    match runReader rdr with
    | none => ⟨s.mem, [], .stuck⟩
    | some (.error e) => ⟨s.mem, [], .error (.ioError e)⟩
    | some (.ok bs) =>
        let bytesRead := bs.length
        if bytesRead > count then ⟨s.mem, [], .panicked⟩
        else
          ⟨listOverwrite s.mem addr bs, [(s.bbase + addr, bytesRead)], .ok bytesRead⟩

/-! ## Atomic access (`store` / `load` / `get_atomic_ref`)

The `AtomicInteger` binding is external to the crate; following the spec
(§6: the binding "maps a plain integer type to its atomic counterpart;
required for ordered store/load"), an atomic type is modelled by its byte
size `sizeT` and natural alignment `alignT`, a value as a `Nat` below
`2 ^ (8 * sizeT)` stored little-endian, and the atomic store/load as the
plain read/write of those bytes (single-threaded semantics; the ordering
argument is threaded through but has no single-threaded effect). -/

/-- `std::sync::atomic::Ordering`, passed through by `store`/`load`. -/
inductive MOrdering where
  | relaxed | acquire | release | acqRel | seqCst
deriving DecidableEq, Repr

/-- Little-endian encoding of a value into `size` bytes. -/
def toLEBytes : Nat → Nat → List Nat
  | 0, _ => []
  | k + 1, v => (v % 256) :: toLEBytes k (v / 256)

/-- Little-endian decoding of a byte list. -/
def fromLEBytes : List Nat → Nat
  | [] => 0
  | b :: rest => b + 256 * fromLEBytes rest

/-- `VolatileSlice::check_alignment(alignment)`: `Misaligned` unless the
slice's address has the low `alignment - 1` bits clear (`alignment` is a
power of two by caller contract). -/
def VSlice.check_alignment (s : VSlice) (alignment : Nat) : Except MError Unit :=
  if s.addr &&& (alignment - 1) ≠ 0 then .error (.misaligned s.addr alignment)
  else .ok ()

/-- `VolatileMemory::get_atomic_ref::<T>(offset)` for an atomic type of
size `sizeT` and alignment `alignT`: `get_slice(offset, size_of::<T>())`
then `check_alignment(align_of::<T>())`; the resolved view is the slice. -/
def VSlice.get_atomic_ref (s : VSlice) (off sizeT alignT : Nat) : Except MError VSlice :=
  match s.get_slice off sizeT with
  | .error e => .error e
  | .ok sl =>
    match sl.check_alignment alignT with
    | .error e => .error e
    | .ok _ => .ok sl

/-- Result of `store`: slice bytes afterwards, marks, unit-or-error. -/
structure SResult where
  mem : List Nat
  marks : List (Nat × Nat)
  res : Except MError Unit
deriving Repr

/-- `Bytes::store::<T>(val, addr, order)`: resolve via `get_atomic_ref`,
perform the atomic store with the given ordering, mark `size_of::<T>()`
bytes dirty at `addr`. -/
def VSlice.store (s : VSlice) (val : Nat) (addr sizeT alignT : Nat) (_order : MOrdering) :
    SResult :=
  match s.get_atomic_ref addr sizeT alignT with
  | .error e => ⟨s.mem, [], .error e⟩
  | .ok _ =>
      ⟨listOverwrite s.mem addr (toLEBytes sizeT val), [(s.bbase + addr, sizeT)], .ok ()⟩

/-- `Bytes::load::<T>(addr, order)`: resolve via `get_atomic_ref`, perform
the atomic load with the given ordering. -/
def VSlice.load (s : VSlice) (addr sizeT alignT : Nat) (_order : MOrdering) :
    Except MError Nat :=
  match s.get_atomic_ref addr sizeT alignT with
  | .error e => .error e
  | .ok sl => .ok (fromLEBytes sl.mem)

/-! ## `get_array_ref` -/

/-- `VolatileMemory::get_array_ref::<T>(offset, n)` for element size
`sizeT`: `isize::try_from(n)` then `checked_mul(size_of::<T>() as isize)`,
`TooBig` if either step fails; then `get_slice(offset, nbytes)`, the
array view being the slice with element count `n`. -/
def VSlice.get_array_ref (s : VSlice) (off n sizeT : Nat) : Except MError (VSlice × Nat) :=
  match (if n ≤ ISIZE_MAX then some n else none).bind
      (fun n' => if n' * sizeT ≤ ISIZE_MAX then some (n' * sizeT) else none) with
  | none => .error (.tooBig n sizeT)
  | some nbytes =>
    match s.get_slice off nbytes with
    | .error e => .error e
    | .ok sl => .ok (sl, n)

/-! ## Typed copies (`copy_to` / `copy_from`)

A typed buffer `&[T]` / `&mut [T]` is a list of elements, each an
`element_size`-byte list. -/

/-- Read one `T` (an `s`-byte chunk) of the viewed bytes at `pos`:
`read_volatile(addr as *const Packed<T>)`. -/
def readElemBytes (mem : List Nat) (pos s : Nat) : List Nat := (mem.drop pos).take s

/-- The element loop of `VolatileArrayRef::copy_to`:
`for v in buf.iter_mut().take(takeN)` reading consecutive `s`-byte chunks
from `pos` and counting iterations in `i`. -/
def arrayCopyToLoop (s : Nat) (mem : List Nat) :
    Nat → Nat → List (List Nat) → List (List Nat) × Nat
  | _pos, 0, buf => (buf, 0)
  | _pos, _ + 1, [] => ([], 0)
  | pos, n + 1, _v :: rest =>
      let r := arrayCopyToLoop s mem (pos + s) n rest
      (readElemBytes mem pos s :: r.1, r.2 + 1)

/-- The element loop of `VolatileArrayRef::copy_from`:
`for &v in buf.iter().take(takeN)` writing consecutive `s`-byte chunks at
`pos` into the viewed bytes; also returns the bytes advanced
(`addr - self.addr`, used for `mark_dirty`). -/
def arrayCopyFromLoop (s : Nat) :
    Nat → Nat → List (List Nat) → List Nat → List Nat × Nat
  | _pos, 0, _buf, mem => (mem, 0)
  | _pos, _ + 1, [], mem => (mem, 0)
  | pos, n + 1, v :: rest, mem =>
      let r := arrayCopyFromLoop s (pos + s) n rest (listOverwrite mem pos (v.take s))
      (r.1, r.2 + s)

/-- `VolatileArrayRef::copy_to(buf)` for element size `s` over an array of
`nelem` elements whose underlying bytes are `mem`: byte-sized fast path
through the copy engine on `to_slice()` (length `nelem * s`), else the
element-wise volatile loop; returns what the source returns (a byte count
on the fast path, an element count otherwise). -/
def arrayCopyTo (s nelem : Nat) (mem : List Nat) (buf : List (List Nat)) :
    List (List Nat) × Nat :=
  if s = 1 then
    let total := min buf.length (nelem * s)
    ((mem.take total).map (fun b => [b]) ++ buf.drop total, total)
  else arrayCopyToLoop s mem 0 nelem buf

/-- `VolatileArrayRef::copy_from(buf)`: byte-sized fast path through the
copy engine marking `count * size_of::<T>()` bytes dirty, else the
element-wise loop marking the bytes actually advanced; returns the new
bytes and marks (at handle base `bbase`). -/
def arrayCopyFrom (s nelem : Nat) (mem : List Nat) (bbase : Nat)
    (buf : List (List Nat)) : List Nat × List (Nat × Nat) :=
  if s = 1 then
    let total := min buf.length (nelem * s)
    (listOverwrite mem 0 (buf.flatten.take total), [(bbase, total)])
  else
    let r := arrayCopyFromLoop s 0 nelem buf mem
    (r.1, [(bbase, r.2)])

/-- `VolatileSlice::copy_to(buf)` for element size `s`: byte-sized fast
path via the copy engine (`total = min(buf.len(), self.len())`), else
delegate to `get_array_ref(0, self.size / size_of::<T>()).copy_to`. -/
def VSlice.copy_to (s : VSlice) (elemSize : Nat) (buf : List (List Nat)) :
    List (List Nat) × Nat :=
  if elemSize = 1 then
    let total := min buf.length s.len
    ((s.mem.take total).map (fun b => [b]) ++ buf.drop total, total)
  else
    let count := s.len / elemSize
    arrayCopyTo elemSize count ((s.mem.drop 0).take (count * elemSize)) buf

/-- `VolatileSlice::copy_from(buf)` for element size `s`: byte-sized fast
path via the copy engine marking `count` bytes dirty, else delegate to
`get_array_ref(0, self.size / size_of::<T>()).copy_from`; returns the
slice's bytes afterwards and the marks. -/
def VSlice.copy_from (s : VSlice) (elemSize : Nat) (buf : List (List Nat)) :
    List Nat × List (Nat × Nat) :=
  if elemSize = 1 then
    let total := min buf.length s.len
    (listOverwrite s.mem 0 (buf.flatten.take total), [(s.bbase, total)])
  else
    let count := s.len / elemSize
    let r := arrayCopyFrom elemSize count ((s.mem.drop 0).take (count * elemSize))
      s.bbase buf
    (listOverwrite s.mem 0 r.1, r.2)

/-! ## Helper lemmas -/

theorem listOverwrite_length (l bs : List Nat) (pos : Nat)
    (h : pos + bs.length ≤ l.length) : (listOverwrite l pos bs).length = l.length := by
  simp only [listOverwrite, List.length_append, List.length_take, List.length_drop]
  omega

theorem listOverwrite_getElem? (l bs : List Nat) (pos a : Nat)
    (h : pos + bs.length ≤ l.length) :
    (listOverwrite l pos bs)[a]? =
      if pos ≤ a ∧ a < pos + bs.length then bs[a - pos]? else l[a]? := by
  unfold listOverwrite
  have htake : (l.take pos).length = pos := by simp only [List.length_take]; omega
  rcases Nat.lt_or_ge a pos with hlt | hge
  · rw [if_neg (by omega)]
    rw [List.getElem?_append_left (by simp only [List.length_append, htake]; omega),
      List.getElem?_append_left (by omega), List.getElem?_take_of_lt hlt]
  · rcases Nat.lt_or_ge a (pos + bs.length) with hmid | hhi
    · rw [if_pos ⟨hge, hmid⟩]
      rw [List.getElem?_append_left (by simp only [List.length_append, htake]; omega),
        List.getElem?_append_right (by omega), htake]
    · rw [if_neg (by omega)]
      rw [List.getElem?_append_right (by simp only [List.length_append, htake]; omega),
        List.getElem?_drop]
      congr 1
      simp only [List.length_append, htake]
      omega

/-! ## Claim theorems -/

/-- C1: `write(buf, addr)` / `read(buf, addr)` on a `VolatileSlice`: an
empty `buf` returns `Ok(0)` at any `addr` (before the bounds test) with
nothing changed; a non-empty `buf` at `addr >= len` fails
`OutOfBounds{addr}`; otherwise both return exactly
`min(buf.len, len - addr)`, `write` placing those `buf` bytes at
`[addr, addr + total)` and leaving every other byte of the slice intact,
`read` filling the first `total` buffer bytes from the slice and leaving
the rest of the buffer intact — never an error for a short transfer. -/
theorem write_read_contract (s : VSlice) (buf : List Nat) (addr : Nat) :
    (buf.length = 0 →
      (s.write buf addr).res = .ok 0 ∧ (s.write buf addr).mem = s.mem ∧
      (s.read buf addr).res = .ok 0 ∧ (s.read buf addr).buf = buf) ∧
    (buf.length ≠ 0 → addr ≥ s.len →
      (s.write buf addr).res = .error (.outOfBounds addr) ∧
      (s.read buf addr).res = .error (.outOfBounds addr)) ∧
    (buf.length ≠ 0 → addr < s.len →
      (s.write buf addr).res = .ok (min buf.length (s.len - addr)) ∧
      (s.read buf addr).res = .ok (min buf.length (s.len - addr)) ∧
      (∀ i, i < min buf.length (s.len - addr) →
        (s.write buf addr).mem[addr + i]? = buf[i]? ∧
        (s.read buf addr).buf[i]? = s.mem[addr + i]?) ∧
      (∀ j, j < addr ∨ addr + min buf.length (s.len - addr) ≤ j →
        (s.write buf addr).mem[j]? = s.mem[j]?) ∧
      (∀ j, min buf.length (s.len - addr) ≤ j →
        (s.read buf addr).buf[j]? = buf[j]?)) := by
  refine ⟨fun h0 => ?_, fun h0 hoob => ?_, fun h0 hin => ?_⟩
  · simp [VSlice.write, VSlice.read, h0]
  · have hne : ¬ buf.length = 0 := h0
    simp [VSlice.write, VSlice.read, hne, hoob]
  · have hne : ¬ buf.length = 0 := h0
    have hnoob : ¬ addr ≥ s.len := by omega
    have hlen : s.len = s.mem.length := rfl
    have htlen : (buf.take (min buf.length (s.len - addr))).length =
        min buf.length (s.len - addr) := by
      simp only [List.length_take]; omega
    have hbound : addr + (buf.take (min buf.length (s.len - addr))).length ≤
        s.mem.length := by
      rw [htlen]; omega
    have hstlen : ((s.mem.drop addr).take (min buf.length (s.len - addr))).length =
        min buf.length (s.len - addr) := by
      simp only [List.length_take, List.length_drop]; omega
    have hrbound : 0 + ((s.mem.drop addr).take (min buf.length (s.len - addr))).length ≤
        buf.length := by
      rw [hstlen]; omega
    have hmemw : (s.write buf addr).mem =
        listOverwrite s.mem addr (buf.take (min buf.length (s.len - addr))) := by
      simp [VSlice.write, hne, hnoob]
    have hmemr : (s.read buf addr).buf =
        listOverwrite buf 0 ((s.mem.drop addr).take (min buf.length (s.len - addr))) := by
      simp [VSlice.read, hne, hnoob]
    refine ⟨?_, ?_, fun i hi => ⟨?_, ?_⟩, fun j hj => ?_, fun j hj => ?_⟩
    · simp [VSlice.write, hne, hnoob]
    · simp [VSlice.read, hne, hnoob]
    · rw [hmemw, listOverwrite_getElem? _ _ _ _ hbound, htlen,
        if_pos ⟨by omega, by omega⟩, Nat.add_sub_cancel_left,
        List.getElem?_take_of_lt hi]
    · rw [hmemr, listOverwrite_getElem? _ _ _ _ hrbound, hstlen,
        if_pos ⟨by omega, by omega⟩, Nat.sub_zero,
        List.getElem?_take_of_lt hi, List.getElem?_drop]
    · rw [hmemw, listOverwrite_getElem? _ _ _ _ hbound, htlen, if_neg (by omega)]
    · rw [hmemr, listOverwrite_getElem? _ _ _ _ hrbound, hstlen, if_neg (by omega)]

/-- Witness for C1: on a 4-byte slice, writing a 3-byte buffer at address
2 returns exactly 2. -/
theorem write_read_contract_witness :
    (VSlice.write ⟨4096, [0, 0, 0, 0], 0⟩ [1, 2, 3] 2).res = .ok 2 :=
  ((write_read_contract ⟨4096, [0, 0, 0, 0], 0⟩ [1, 2, 3] 2).2.2
    (by decide) (by decide)).1

/-- C2: `get_slice(offset, count)` succeeds with a view of length exactly
`count` whenever `offset + count ≤ len`; fails
`Overflow{base: offset, offset: count}` when `offset + count` exceeds
`usize::MAX`; and fails `OutOfBounds` otherwise (`len ≤ usize::MAX` holds
for any real slice since `size` is a `usize`). -/
theorem get_slice_contract (s : VSlice) (off count : Nat)
    (hinv : s.len ≤ USIZE_MAX) :
    (off + count ≤ s.len →
      ∃ r, s.get_slice off count = .ok r ∧ r.len = count) ∧
    (off + count > USIZE_MAX →
      s.get_slice off count = .error (.overflow off count)) ∧
    (off + count ≤ USIZE_MAX → off + count > s.len →
      s.get_slice off count = .error (.outOfBounds (off + count))) := by
  refine ⟨fun hle => ?_, fun hovf => ?_, fun hnovf hoob => ?_⟩
  · have hnovf : ¬ off + count > USIZE_MAX := by omega
    refine ⟨⟨s.addr + off, (s.mem.drop off).take count, s.bbase + off⟩, ?_, ?_⟩
    · simp [VSlice.get_slice, VSlice.compute_end_offset, compute_offset, hnovf,
        if_neg (by omega : ¬ off + count > s.len)]
    · show ((s.mem.drop off).take count).length = count
      simp only [List.length_take, List.length_drop]
      unfold VSlice.len at hle
      omega
  · simp [VSlice.get_slice, VSlice.compute_end_offset, compute_offset, hovf]
  · simp [VSlice.get_slice, VSlice.compute_end_offset, compute_offset,
      if_neg (by omega : ¬ off + count > USIZE_MAX), hoob]

/-- Witness for C2: on a 3-byte slice, `get_slice(1, 2)` succeeds with
length 2. -/
theorem get_slice_contract_witness :
    ∃ r, VSlice.get_slice ⟨4096, [5, 6, 7], 0⟩ 1 2 = .ok r ∧ r.len = 2 :=
  (get_slice_contract ⟨4096, [5, 6, 7], 0⟩ 1 2 (by decide)).1 (by decide)

/-- C5: with `addr < len` and `addr + buf.len > len`, `write` succeeds
returning exactly `len - addr`, while `write_slice` on the same inputs
fails `PartialBuffer{expected: buf.len, completed: len - addr}`;
`read_slice` likewise fails `PartialBuffer` whenever the underlying `read`
returns fewer than `buf.len` bytes (in particular on these inputs). -/
theorem write_slice_partial (s : VSlice) (buf : List Nat) (addr : Nat)
    (h1 : addr < s.len) (h2 : s.len < addr + buf.length) :
    (s.write buf addr).res = .ok (s.len - addr) ∧
    (s.write_slice buf addr).res =
      .error (.partialBuffer buf.length (s.len - addr)) ∧
    (s.read_slice buf addr).res =
      .error (.partialBuffer buf.length (s.len - addr)) ∧
    (∀ n, (s.read buf addr).res = .ok n → n ≠ buf.length →
      (s.read_slice buf addr).res = .error (.partialBuffer buf.length n)) := by
  have hne : ¬ buf.length = 0 := by omega
  have hnoob : ¬ addr ≥ s.len := by omega
  have hmin : min buf.length (s.len - addr) = s.len - addr := by omega
  have hwr : (s.write buf addr).res = .ok (s.len - addr) := by
    simp [VSlice.write, hne, hnoob, hmin]
  have hrd : (s.read buf addr).res = .ok (s.len - addr) := by
    simp [VSlice.read, hne, hnoob, hmin]
  refine ⟨hwr, ?_, ?_, fun n hn hne' => ?_⟩
  · simp only [VSlice.write_slice, hwr]
    rw [if_pos (by omega)]
  · simp only [VSlice.read_slice, hrd]
    rw [if_pos (by omega)]
  · simp only [VSlice.read_slice, hn]
    rw [if_pos hne']

/-- Witness for C5: a 4-byte slice, 3-byte buffer at address 2: `write`
returns 2, `write_slice` and `read_slice` fail
`PartialBuffer{expected: 3, completed: 2}`. -/
theorem write_slice_partial_witness :
    (VSlice.write ⟨4096, [0, 0, 0, 0], 0⟩ [1, 2, 3] 2).res = .ok 2 ∧
    (VSlice.write_slice ⟨4096, [0, 0, 0, 0], 0⟩ [1, 2, 3] 2).res =
      .error (.partialBuffer 3 2) :=
  have h := write_slice_partial ⟨4096, [0, 0, 0, 0], 0⟩ [1, 2, 3] 2
    (by decide) (by decide)
  ⟨h.1, h.2.1⟩

/-- C7: a non-empty in-range `write(buf, addr)` emits exactly one
`mark_dirty` event, for `[addr, addr + bytes_written)` on the slice's own
handle; and a sub-view derived via `subslice`/`offset`/`split_at` carries
the handle re-derived at the sub-view's offset (`slice_at`), so the same
write through the sub-view marks the parent's handle at the absolute
offset (sub-view offset + `addr`).  (The `slice_at`/`mark_dirty`
composition law of the external bitmap is modelled from the spec.) -/
theorem write_marks_dirty (s sub : VSlice) (buf : List Nat) (off count addr : Nat)
    (hbuf : buf.length ≠ 0) :
    (addr < s.len →
      (s.write buf addr).marks =
        [(s.bbase + addr, min buf.length (s.len - addr))]) ∧
    (s.subslice off count = .ok sub → addr < sub.len →
      (sub.write buf addr).marks =
        [(s.bbase + (off + addr), min buf.length (sub.len - addr))]) ∧
    (s.offset off = .ok sub → addr < sub.len →
      (sub.write buf addr).marks =
        [(s.bbase + (off + addr), min buf.length (sub.len - addr))]) ∧
    (∀ fst snd, s.split_at off = .ok (fst, snd) →
      (addr < fst.len →
        (fst.write buf addr).marks =
          [(s.bbase + addr, min buf.length (fst.len - addr))]) ∧
      (addr < snd.len →
        (snd.write buf addr).marks =
          [(s.bbase + (off + addr), min buf.length (snd.len - addr))])) := by
  have hmarks : ∀ t : VSlice, addr < t.len →
      (t.write buf addr).marks = [(t.bbase + addr, min buf.length (t.len - addr))] := by
    intro t hin
    simp [VSlice.write, hbuf, if_neg (by omega : ¬ addr ≥ t.len)]
  refine ⟨fun hin => hmarks s hin, fun hsub hin => ?_, fun hsub hin => ?_,
    fun fst snd hsp => ⟨fun hin => ?_, fun hin => ?_⟩⟩
  · have hb : sub.bbase = s.bbase + off := by
      unfold VSlice.subslice at hsub
      rcases hmatch : s.compute_end_offset off count with e | v <;> rw [hmatch] at hsub
      · exact absurd hsub nofun
      · simp at hsub
        rw [← hsub]
    rw [hmarks sub hin, hb, Nat.add_assoc]
  · have hb : sub.bbase = s.bbase + off := by
      unfold VSlice.offset at hsub
      by_cases h1 : s.addr + off > USIZE_MAX
      · rw [if_pos h1] at hsub; exact absurd hsub nofun
      · rw [if_neg h1] at hsub
        by_cases h2 : off > s.len
        · rw [if_pos h2] at hsub; exact absurd hsub nofun
        · rw [if_neg h2] at hsub
          simp at hsub
          rw [← hsub]

    rw [hmarks sub hin, hb, Nat.add_assoc]
  · have hb : fst.bbase = s.bbase := by
      unfold VSlice.split_at at hsp
      rcases hmatch : s.offset off with e | v <;> rw [hmatch] at hsp
      · exact absurd hsp nofun
      · simp at hsp
        rw [← hsp.1]
    rw [hmarks fst hin, hb]
  · have hb : snd.bbase = s.bbase + off := by
      unfold VSlice.split_at at hsp
      rcases hmatch : s.offset off with e | v <;> rw [hmatch] at hsp
      · exact absurd hsp nofun
      · have hv : snd = v := by simp at hsp; rw [← hsp.2]
        unfold VSlice.offset at hmatch
        by_cases h1 : s.addr + off > USIZE_MAX
        · rw [if_pos h1] at hmatch; exact absurd hmatch nofun
        · rw [if_neg h1] at hmatch
          by_cases h2 : off > s.len
          · rw [if_pos h2] at hmatch; exact absurd hmatch nofun
          · rw [if_neg h2] at hmatch
            simp at hmatch
            rw [hv, ← hmatch]
    rw [hmarks snd hin, hb, Nat.add_assoc]

/-- Witness for C7: writing 2 bytes at address 1 of the sub-view
`subslice(2, 4)` of an 8-byte slice marks the parent handle at absolute
offset 3 for 2 bytes. -/
theorem write_marks_dirty_witness :
    (VSlice.write ⟨4098, [0, 0, 0, 0], 4⟩ [7, 7] 1).marks = [(5, 2)] :=
  ((write_marks_dirty ⟨4096, [9, 9, 0, 0, 0, 0, 9, 9], 2⟩ ⟨4098, [0, 0, 0, 0], 4⟩
      [7, 7] 2 4 1 (by decide)).2.1) (by rfl) (by decide)

/-- C9: `get_array_ref::<T>(offset, n)` fails
`TooBig{nelements: n, size: sizeof(T)}` exactly when `n > isize::MAX` or
`n * sizeof(T)` overflows `isize`; otherwise it is precisely
`get_slice(offset, n * sizeof(T))` (paired with the element count). -/
theorem get_array_ref_contract (s : VSlice) (off n sizeT : Nat) :
    (n > ISIZE_MAX ∨ n * sizeT > ISIZE_MAX →
      s.get_array_ref off n sizeT = .error (.tooBig n sizeT)) ∧
    (n ≤ ISIZE_MAX → n * sizeT ≤ ISIZE_MAX →
      s.get_array_ref off n sizeT =
        (s.get_slice off (n * sizeT)).map (fun sl => (sl, n))) := by
  constructor
  · intro hbig
    unfold VSlice.get_array_ref
    rcases hbig with hbig | hbig
    · rw [if_neg (by omega)]
      simp
    · by_cases hn : n ≤ ISIZE_MAX
      · rw [if_pos hn]
        simp only [Option.some_bind]
        rw [if_neg (by omega)]
      · rw [if_neg hn]
        simp
  · intro hn hmul
    unfold VSlice.get_array_ref
    rw [if_pos hn]
    simp only [Option.some_bind]
    rw [if_pos hmul]
    rcases hmatch : s.get_slice off (n * sizeT) with e | v <;> simp [hmatch, Except.map]

/-- Witness for C9: on a 5-byte slice, `get_array_ref` with `n = 2`,
`sizeof(T) = 2` at offset 1 resolves to `get_slice(1, 4)`. -/
theorem get_array_ref_contract_witness :
    VSlice.get_array_ref ⟨4096, [1, 2, 3, 4, 5], 0⟩ 1 2 2 =
      (VSlice.get_slice ⟨4096, [1, 2, 3, 4, 5], 0⟩ 1 4).map (fun sl => (sl, 2)) :=
  (get_array_ref_contract ⟨4096, [1, 2, 3, 4, 5], 0⟩ 1 2 2).2 (by decide) (by decide)

theorem land_two_pow_sub_one (x k : Nat) : x &&& (2 ^ k - 1) = x % 2 ^ k := by
  apply Nat.eq_of_testBit_eq
  intro i
  rw [Nat.testBit_land, Nat.testBit_two_pow_sub_one, Nat.testBit_mod_two_pow]
  cases h : x.testBit i <;> simp [h]

theorem toLEBytes_length (n v : Nat) : (toLEBytes n v).length = n := by
  induction n generalizing v with
  | zero => rfl
  | succ k ih => simp [toLEBytes, ih]

theorem fromLEBytes_toLEBytes (n v : Nat) :
    fromLEBytes (toLEBytes n v) = v % 256 ^ n := by
  induction n generalizing v with
  | zero => simp [toLEBytes, fromLEBytes, Nat.mod_one]
  | succ k ih =>
      rw [toLEBytes, fromLEBytes, ih, pow_succ, mul_comm (256 ^ k) 256, Nat.mod_mul]

theorem listOverwrite_window (l bs : List Nat) (pos : Nat)
    (h : pos + bs.length ≤ l.length) :
    ((listOverwrite l pos bs).drop pos).take bs.length = bs := by
  have hlen := listOverwrite_length l bs pos h
  apply List.ext_getElem?
  intro i
  rcases Nat.lt_or_ge i bs.length with hi | hi
  · rw [List.getElem?_take_of_lt hi, List.getElem?_drop,
      listOverwrite_getElem? _ _ _ _ h, if_pos ⟨by omega, by omega⟩,
      Nat.add_sub_cancel_left]
  · rw [List.getElem?_eq_none, List.getElem?_eq_none hi]
    simp only [List.length_take, List.length_drop, hlen]
    omega

/-- C8: `store<T>` / `load<T>` / `get_atomic_ref<T>` with the bounds check
passing (`addr + sizeof(T) ≤ len`): they fail
`Misaligned{addr: resolved, alignment}` exactly when the resolved address
`base + addr` is not a multiple of `T`'s natural (power-of-two) alignment;
when aligned, `store` emits exactly one dirty mark covering
`[addr, addr + sizeof(T))` with the ordering passed through, and a `load`
at the same address of the stored slice returns the stored value. -/
theorem atomic_store_load_contract (s : VSlice) (addr sizeT alignT k val : Nat)
    (ord ord' : MOrdering) (hk : alignT = 2 ^ k)
    (hbound : addr + sizeT ≤ s.len) (hinv : s.len ≤ USIZE_MAX) :
    ((s.store val addr sizeT alignT ord).res =
        .error (.misaligned (s.addr + addr) alignT) ↔ (s.addr + addr) % alignT ≠ 0) ∧
    (s.load addr sizeT alignT ord = .error (.misaligned (s.addr + addr) alignT)
        ↔ (s.addr + addr) % alignT ≠ 0) ∧
    (s.get_atomic_ref addr sizeT alignT =
        .error (.misaligned (s.addr + addr) alignT) ↔ (s.addr + addr) % alignT ≠ 0) ∧
    ((s.addr + addr) % alignT = 0 →
      (s.store val addr sizeT alignT ord).marks = [(s.bbase + addr, sizeT)] ∧
      (val < 256 ^ sizeT →
        VSlice.load ⟨s.addr, (s.store val addr sizeT alignT ord).mem, s.bbase⟩
          addr sizeT alignT ord' = .ok val)) := by
  have hgs : s.get_slice addr sizeT =
      .ok ⟨s.addr + addr, (s.mem.drop addr).take sizeT, s.bbase + addr⟩ := by
    simp [VSlice.get_slice, VSlice.compute_end_offset, compute_offset,
      if_neg (by omega : ¬ addr + sizeT > USIZE_MAX),
      if_neg (by omega : ¬ addr + sizeT > s.len)]
  have hmask : (s.addr + addr) &&& (alignT - 1) = (s.addr + addr) % alignT := by
    rw [hk, land_two_pow_sub_one]
  by_cases hal : (s.addr + addr) % alignT = 0
  · have href : s.get_atomic_ref addr sizeT alignT =
        .ok ⟨s.addr + addr, (s.mem.drop addr).take sizeT, s.bbase + addr⟩ := by
      simp [VSlice.get_atomic_ref, hgs, VSlice.check_alignment, hmask, hal]
    have hsres : (s.store val addr sizeT alignT ord).res = .ok () := by
      simp [VSlice.store, href]
    have hlres : ∃ v, s.load addr sizeT alignT ord = .ok v := by
      simp [VSlice.load, href]
    refine ⟨?_, ?_, ?_, fun _ => ⟨?_, fun hlt => ?_⟩⟩
    · rw [hsres]; simp [hal]
    · rcases hlres with ⟨v, hv⟩; rw [hv]; simp [hal]
    · rw [href]; simp [hal]
    · simp [VSlice.store, href]
    · have hsmem : (s.store val addr sizeT alignT ord).mem =
          listOverwrite s.mem addr (toLEBytes sizeT val) := by
        simp [VSlice.store, href]
      have hmlen : (listOverwrite s.mem addr (toLEBytes sizeT val)).length =
          s.mem.length := by
        apply listOverwrite_length
        rw [toLEBytes_length]; exact hbound
      have hL : s.len = s.mem.length := rfl
      have h1 : ¬ addr + sizeT > USIZE_MAX := by omega
      have h2 : ¬ addr + sizeT > (listOverwrite s.mem addr (toLEBytes sizeT val)).length := by
        rw [hmlen]; omega
      have hwin : ((listOverwrite s.mem addr (toLEBytes sizeT val)).drop addr).take sizeT =
          toLEBytes sizeT val := by
        have := listOverwrite_window s.mem (toLEBytes sizeT val) addr
          (by rw [toLEBytes_length]; exact hbound)
        rwa [toLEBytes_length] at this
      rw [hsmem]
      simp only [VSlice.load, VSlice.get_atomic_ref, VSlice.get_slice,
        VSlice.compute_end_offset, compute_offset, VSlice.len, if_neg h1, if_neg h2]
      simp only [VSlice.check_alignment, hmask, hal, ne_eq, not_true_eq_false,
        if_false, ite_false]
      simp only [hwin]
      rw [fromLEBytes_toLEBytes, Nat.mod_eq_of_lt hlt]
  · have href : s.get_atomic_ref addr sizeT alignT =
        .error (.misaligned (s.addr + addr) alignT) := by
      simp [VSlice.get_atomic_ref, hgs, VSlice.check_alignment, hmask, hal]
    refine ⟨?_, ?_, ?_, fun hc => absurd hc hal⟩
    · simp [VSlice.store, href, hal]
    · simp [VSlice.load, href, hal]
    · rw [href]; simp [hal]

/-- Witness for C8: on a 4-byte slice at (2-aligned) base address 4096,
storing `0x1234` as a 2-byte atomic at offset 0 marks `[0, 2)` dirty and a
subsequent load returns `0x1234`. -/
theorem atomic_store_load_contract_witness :
    (VSlice.store ⟨4096, [0, 0, 0, 0], 0⟩ 4660 0 2 2 .seqCst).marks = [(0, 2)] ∧
    VSlice.load ⟨4096, (VSlice.store ⟨4096, [0, 0, 0, 0], 0⟩ 4660 0 2 2 .seqCst).mem, 0⟩
      0 2 2 .relaxed = .ok 4660 :=
  have h := (atomic_store_load_contract ⟨4096, [0, 0, 0, 0], 0⟩ 0 2 2 1 4660
    .seqCst .relaxed (by decide) (by decide) (by decide)).2.2.2 (by decide)
  ⟨h.1, h.2 (by decide)⟩

/-- C6: `read_from(addr, reader, count)` on an in-bounds range: an
interrupted reader outcome is retried transparently (the call behaves as
if that outcome never happened, so it is never surfaced); any other
reader error is returned as `IOError` wrapping it, with the region's
bytes unchanged and no dirty marks; on success only the `bytes_read`
bytes actually read are copied in at `addr` (the rest of the region
untouched) and exactly that range is marked dirty. -/
theorem read_from_contract (s : VSlice) (addr count : Nat) (rdr : List ReadOutcome)
    (hbound : addr + count ≤ s.len) (hinv : s.len ≤ USIZE_MAX) :
    (s.read_from addr (.interrupted :: rdr) count = s.read_from addr rdr count) ∧
    (∀ e, runReader rdr = some (.error e) →
      s.read_from addr rdr count = ⟨s.mem, [], .error (.ioError e)⟩) ∧
    (∀ bs, runReader rdr = some (.ok bs) → bs.length ≤ count →
      (s.read_from addr rdr count).out = .ok bs.length ∧
      (s.read_from addr rdr count).marks = [(s.bbase + addr, bs.length)] ∧
      (∀ i, i < bs.length → (s.read_from addr rdr count).mem[addr + i]? = bs[i]?) ∧
      (∀ j, j < addr ∨ addr + bs.length ≤ j →
        (s.read_from addr rdr count).mem[j]? = s.mem[j]?)) := by
  have hL : s.len = s.mem.length := rfl
  have hend : s.compute_end_offset addr count = .ok (addr + count) := by
    simp [VSlice.compute_end_offset, compute_offset,
      if_neg (by omega : ¬ addr + count > USIZE_MAX),
      if_neg (by omega : ¬ addr + count > s.len)]
  refine ⟨?_, fun e he => ?_, fun bs hbs hle => ?_⟩
  · simp [VSlice.read_from, runReader]
  · simp [VSlice.read_from, hend, he]
  · have hres : s.read_from addr rdr count =
        ⟨listOverwrite s.mem addr bs, [(s.bbase + addr, bs.length)], .ok bs.length⟩ := by
      simp [VSlice.read_from, hend, hbs, if_neg (by omega : ¬ bs.length > count)]
    have hb : addr + bs.length ≤ s.mem.length := by omega
    refine ⟨by rw [hres], by rw [hres], fun i hi => ?_, fun j hj => ?_⟩
    · rw [hres]
      show (listOverwrite s.mem addr bs)[addr + i]? = bs[i]?
      rw [listOverwrite_getElem? _ _ _ _ hb, if_pos ⟨by omega, by omega⟩,
        Nat.add_sub_cancel_left]
    · rw [hres]
      show (listOverwrite s.mem addr bs)[j]? = s.mem[j]?
      rw [listOverwrite_getElem? _ _ _ _ hb, if_neg (by omega)]

/-- Witness for C6: a reader that is first interrupted and then fails with
error code 5 makes `read_from` return `IOError(5)` with the 4-byte region
unchanged and nothing marked dirty. -/
theorem read_from_contract_witness :
    VSlice.read_from ⟨4096, [0, 0, 0, 0], 7⟩ 1 [.interrupted, .ioerr 5] 3 =
      ⟨[0, 0, 0, 0], [], .error (.ioError 5)⟩ :=
  (read_from_contract ⟨4096, [0, 0, 0, 0], 7⟩ 1 3 [.interrupted, .ioerr 5]
    (by decide) (by decide)).2.1 5 (by rfl)

/-- C10: in `read_from(addr, reader, count)` on an in-bounds range, a
reader claiming more than `count` bytes hits `assert!(bytes_read <= count)`
and the call panics with nothing committed and nothing marked dirty; a
well-behaved reader returning `n ≤ count` bytes gets exactly those `n`
bytes committed at `addr`. -/
theorem read_from_assert (s : VSlice) (addr count : Nat) (rdr : List ReadOutcome)
    (bs : List Nat) (hbound : addr + count ≤ s.len) (hinv : s.len ≤ USIZE_MAX)
    (hrun : runReader rdr = some (.ok bs)) :
    (bs.length > count → s.read_from addr rdr count = ⟨s.mem, [], .panicked⟩) ∧
    (bs.length ≤ count →
      (s.read_from addr rdr count).out = .ok bs.length ∧
      (s.read_from addr rdr count).mem = listOverwrite s.mem addr bs) := by
  have hend : s.compute_end_offset addr count = .ok (addr + count) := by
    simp [VSlice.compute_end_offset, compute_offset,
      if_neg (by omega : ¬ addr + count > USIZE_MAX),
      if_neg (by omega : ¬ addr + count > s.len)]
  constructor
  · intro hgt
    simp [VSlice.read_from, hend, hrun, hgt]
  · intro hle
    have hres : s.read_from addr rdr count =
        ⟨listOverwrite s.mem addr bs, [(s.bbase + addr, bs.length)], .ok bs.length⟩ := by
      simp [VSlice.read_from, hend, hrun, if_neg (by omega : ¬ bs.length > count)]
    rw [hres]
    exact ⟨rfl, rfl⟩

/-- Witness for C10: a misbehaving reader claiming 4 bytes against
`count = 3` panics on the assertion, committing nothing. -/
theorem read_from_assert_witness :
    VSlice.read_from ⟨4096, [0, 0, 0, 0], 7⟩ 1 [.ok [9, 8, 7, 6]] 3 =
      ⟨[0, 0, 0, 0], [], .panicked⟩ :=
  (read_from_assert ⟨4096, [0, 0, 0, 0], 7⟩ 1 3 [.ok [9, 8, 7, 6]] [9, 8, 7, 6]
    (by decide) (by decide) (by rfl)).1 (by decide)

theorem listOverwrite_nil (l : List Nat) (pos : Nat) : listOverwrite l pos [] = l := by
  simp only [listOverwrite, List.length_nil, Nat.add_zero, List.append_nil]
  exact List.take_append_drop pos l

theorem listOverwrite_append (mem a b : List Nat) (pos : Nat)
    (h : pos + a.length + b.length ≤ mem.length) :
    listOverwrite (listOverwrite mem pos a) (pos + a.length) b =
      listOverwrite mem pos (a ++ b) := by
  have hlen : (listOverwrite mem pos a).length = mem.length :=
    listOverwrite_length _ _ _ (by omega)
  apply List.ext_getElem?
  intro i
  rw [listOverwrite_getElem? _ _ _ _ (by rw [hlen]; omega),
    listOverwrite_getElem? _ _ _ _ (by omega),
    listOverwrite_getElem? _ _ _ _ (by simp only [List.length_append]; omega)]
  by_cases h1 : pos + a.length ≤ i ∧ i < pos + a.length + b.length
  · rw [if_pos h1, if_pos (by simp only [List.length_append]; omega),
      List.getElem?_append_right (by omega)]
    congr 1
    omega
  · rw [if_neg h1]
    by_cases h2 : pos ≤ i ∧ i < pos + a.length
    · rw [if_pos h2, if_pos (by simp only [List.length_append]; omega),
        List.getElem?_append_left (by omega)]
    · rw [if_neg h2, if_neg (by simp only [List.length_append]; omega)]

theorem listOverwrite_take_absorb (l bs : List Nat) (N : Nat)
    (hN : N ≤ l.length) (hbs : bs.length ≤ N) :
    listOverwrite l 0 (listOverwrite (l.take N) 0 bs) = listOverwrite l 0 bs := by
  have htN : (l.take N).length = N := by simp only [List.length_take]; omega
  have hinlen : (listOverwrite (l.take N) 0 bs).length = N := by
    rw [listOverwrite_length _ _ _ (by rw [htN]; omega)]
    exact htN
  apply List.ext_getElem?
  intro i
  have hLBig := listOverwrite_getElem? l (listOverwrite (l.take N) 0 bs) 0 i
    (by rw [hinlen]; omega)
  have hRHS := listOverwrite_getElem? l bs 0 i (by omega)
  have hInner := listOverwrite_getElem? (l.take N) bs 0 i (by rw [htN]; omega)
  rw [hLBig, hRHS, hinlen]
  by_cases h1 : i < N
  · rw [if_pos ⟨Nat.zero_le i, by omega⟩]
    simp only [Nat.sub_zero] at hInner ⊢
    rw [hInner]
    by_cases h2 : i < bs.length
    · rw [if_pos ⟨Nat.zero_le i, by omega⟩, if_pos ⟨Nat.zero_le i, by omega⟩]
    · rw [if_neg (by omega), if_neg (by omega), List.getElem?_take_of_lt h1]
  · rw [if_neg (by omega), if_neg (by omega)]

theorem flatten_length_uniform (s : Nat) (buf : List (List Nat))
    (h : ∀ e ∈ buf, e.length = s) : buf.flatten.length = s * buf.length := by
  induction buf with
  | nil => simp
  | cons v rest ih =>
      simp only [List.flatten_cons, List.length_append, List.length_cons]
      rw [h v (by simp), ih (fun e he => h e (by simp [he]))]
      ring

theorem flatten_drop_uniform (s : Nat) (buf : List (List Nat))
    (h : ∀ e ∈ buf, e.length = s) (k : Nat) :
    (buf.drop k).flatten = buf.flatten.drop (s * k) := by
  induction k generalizing buf with
  | zero => simp
  | succ j ih =>
      cases buf with
      | nil => simp
      | cons v rest =>
          have hv : v.length = s := h v (by simp)
          simp only [List.drop_succ_cons, List.flatten_cons]
          rw [ih rest (fun e he => h e (by simp [he])),
            show s * (j + 1) = v.length + s * j by rw [hv]; ring, List.drop_append]

theorem flatten_map_singleton (l : List Nat) : (l.map (fun b => [b])).flatten = l := by
  induction l with
  | nil => rfl
  | cons a t ih => simp [ih]

theorem arrayCopyToLoop_spec (s : Nat) (mem : List Nat) (buf : List (List Nat)) :
    ∀ takeN pos : Nat, (∀ e ∈ buf, e.length = s) →
      pos + s * min takeN buf.length ≤ mem.length →
      (arrayCopyToLoop s mem pos takeN buf).2 = min takeN buf.length ∧
      (arrayCopyToLoop s mem pos takeN buf).1.flatten =
        (mem.drop pos).take (s * min takeN buf.length) ++
          buf.flatten.drop (s * min takeN buf.length) := by
  induction buf with
  | nil =>
      intro takeN pos _ _
      cases takeN <;> simp [arrayCopyToLoop]
  | cons v rest ih =>
      intro takeN pos helem hbound
      cases takeN with
      | zero => simp [arrayCopyToLoop]
      | succ n =>
          have hv : v.length = s := helem v (by simp)
          have hrest : ∀ e ∈ rest, e.length = s := fun e he => helem e (by simp [he])
          have hm : min (n + 1) (v :: rest).length = min n rest.length + 1 := by
            simp only [List.length_cons]; omega
          have hb' : pos + (s * min n rest.length + s) ≤ mem.length := by
            rw [hm, Nat.mul_succ] at hbound; exact hbound
          obtain ⟨ih2, ih1⟩ := ih n (pos + s) hrest (by omega)
          refine ⟨?_, ?_⟩
          · simp only [arrayCopyToLoop, hm, ih2]
          · simp only [arrayCopyToLoop, List.flatten_cons, hm, ih1, readElemBytes]
            rw [show s * (min n rest.length + 1) = s + s * min n rest.length by ring,
              List.take_add, List.drop_drop,
              show s + s * min n rest.length = v.length + s * min n rest.length by
                rw [hv],
              List.drop_append, List.append_assoc]

theorem arrayCopyFromLoop_spec (s : Nat) (buf : List (List Nat)) :
    ∀ (takeN pos : Nat) (mem : List Nat), (∀ e ∈ buf, e.length = s) →
      pos + s * min takeN buf.length ≤ mem.length →
      (arrayCopyFromLoop s pos takeN buf mem).2 = s * min takeN buf.length ∧
      (arrayCopyFromLoop s pos takeN buf mem).1 =
        listOverwrite mem pos (buf.flatten.take (s * min takeN buf.length)) := by
  induction buf with
  | nil =>
      intro takeN pos mem _ _
      cases takeN <;> simp [arrayCopyFromLoop, listOverwrite_nil]
  | cons v rest ih =>
      intro takeN pos mem helem hbound
      cases takeN with
      | zero => simp [arrayCopyFromLoop, listOverwrite_nil]
      | succ n =>
          have hv : v.length = s := helem v (by simp)
          have hrest : ∀ e ∈ rest, e.length = s := fun e he => helem e (by simp [he])
          have hm : min (n + 1) (v :: rest).length = min n rest.length + 1 := by
            simp only [List.length_cons]; omega
          have hb' : pos + (s * min n rest.length + s) ≤ mem.length := by
            rw [hm, Nat.mul_succ] at hbound; exact hbound
          have hvs : v.take s = v := by rw [← hv]; exact List.take_length v
          have hlen1 : (listOverwrite mem pos v).length = mem.length :=
            listOverwrite_length _ _ _ (by omega)
          have hflatlen : rest.flatten.length = s * rest.length :=
            flatten_length_uniform s rest hrest
          have hmle : s * min n rest.length ≤ s * rest.length :=
            Nat.mul_le_mul_left s (Nat.min_le_right n rest.length)
          obtain ⟨ih2, ih1⟩ := ih n (pos + s) (listOverwrite mem pos v) hrest
            (by rw [hlen1]; omega)
          refine ⟨?_, ?_⟩
          · simp only [arrayCopyFromLoop, hvs, ih2, hm]
            ring
          · simp only [arrayCopyFromLoop, hvs, ih1, hm]
            have hsplit : ((v :: rest).flatten).take (s * (min n rest.length + 1)) =
                v ++ rest.flatten.take (s * min n rest.length) := by
              simp only [List.flatten_cons]
              rw [show s * (min n rest.length + 1) = v.length + s * min n rest.length by
                rw [hv]; ring]
              exact List.take_append _
            rw [hsplit]
            have hb3 : pos + v.length + (rest.flatten.take (s * min n rest.length)).length ≤
                mem.length := by
              rw [hv, List.length_take, hflatlen]; omega
            have happ := listOverwrite_append mem v
              (rest.flatten.take (s * min n rest.length)) pos hb3
            rw [hv] at happ
            exact happ

/-- C4 counterexample: the claim (both typed copies move exactly
`min(len, buf_bytes)` bytes) fails at element size 2, a 3-byte view and a
2-element buffer: `min(len, buf_bytes) = min(3, 4) = 3`, but the code
copies `count = 3 / 2 = 1` whole element, i.e. 2 bytes; the destination
buffer ends up `[[10, 20], [0, 0]]`, not the first 3 source bytes. -/
theorem copy_to_moved_counterexample :
    ¬ ((VSlice.copy_to ⟨4096, [10, 20, 30], 0⟩ 2 [[0, 0], [0, 0]]).1.flatten =
        [10, 20, 30].take (min 3 (2 * 2)) ++
          ([[0, 0], [0, 0]] : List (List Nat)).flatten.drop (min 3 (2 * 2))) := by
  decide

/-- C4 (amended): for element size `s > 0`, `copy_to(buf)` and
`copy_from(buf)` move exactly `s * min(len / s, buf.len())` bytes — equal
to `min(len, buf_bytes)` when `s = 1` (the fast path through the copy
engine) and whenever `s` divides `len`, but limited to whole elements of
the `len / s`-element array view otherwise: `copy_to` replaces exactly
that prefix of `buf`'s bytes with the view's prefix, `copy_from` replaces
exactly that prefix of the view with `buf`'s bytes and marks exactly it
dirty. -/
theorem copy_to_from_moved (sl : VSlice) (s : Nat) (buf : List (List Nat))
    (hs : 0 < s) (helem : ∀ e ∈ buf, e.length = s) :
    (sl.copy_to s buf).1.flatten =
      sl.mem.take (s * min (sl.len / s) buf.length) ++
        buf.flatten.drop (s * min (sl.len / s) buf.length) ∧
    (sl.copy_from s buf).1 =
      listOverwrite sl.mem 0
        (buf.flatten.take (s * min (sl.len / s) buf.length)) ∧
    (sl.copy_from s buf).2 = [(sl.bbase, s * min (sl.len / s) buf.length)] := by
  have hflatlen : buf.flatten.length = s * buf.length :=
    flatten_length_uniform s buf helem
  by_cases h1 : s = 1
  · subst h1
    have hB : 1 * min (sl.len / 1) buf.length = min buf.length sl.len := by
      rw [Nat.div_one]; omega
    have helem1 : ∀ e ∈ buf, e.length = 1 := helem
    have hfastT : sl.copy_to 1 buf =
        ((sl.mem.take (min buf.length sl.len)).map (fun b => [b]) ++
          buf.drop (min buf.length sl.len), min buf.length sl.len) := by
      simp [VSlice.copy_to]
    have hfastF : sl.copy_from 1 buf =
        (listOverwrite sl.mem 0 (buf.flatten.take (min buf.length sl.len)),
          [(sl.bbase, min buf.length sl.len)]) := by
      simp [VSlice.copy_from]
    refine ⟨?_, ?_, ?_⟩
    · rw [hfastT, hB]
      show ((sl.mem.take (min buf.length sl.len)).map (fun b => [b]) ++
          buf.drop (min buf.length sl.len)).flatten = _
      rw [List.flatten_append, flatten_map_singleton,
        flatten_drop_uniform 1 buf helem1, Nat.one_mul]
    · rw [hfastF, hB]
    · rw [hfastF, hB]
  · have hmle : s * min (sl.len / s) buf.length ≤ s * (sl.len / s) :=
      Nat.mul_le_mul_left s (Nat.min_le_left _ _)
    have hL : sl.len = sl.mem.length := rfl
    have hmemlen : ((sl.mem.drop 0).take (sl.len / s * s)).length = sl.len / s * s := by
      simp only [List.drop_zero, List.length_take]
      have := Nat.div_mul_le_self sl.len s
      omega
    have hbound : 0 + s * min (sl.len / s) buf.length ≤
        ((sl.mem.drop 0).take (sl.len / s * s)).length := by
      rw [hmemlen]
      have h := Nat.mul_comm (sl.len / s) s
      omega
    refine ⟨?_, ?_, ?_⟩
    · obtain ⟨_, hto⟩ := arrayCopyToLoop_spec s ((sl.mem.drop 0).take (sl.len / s * s))
        buf (sl.len / s) 0 helem hbound
      simp only [VSlice.copy_to, if_neg h1, arrayCopyTo, if_neg h1]
      rw [hto, List.drop_zero, List.drop_zero, List.take_take]
      congr 2
      have h := Nat.mul_comm (sl.len / s) s
      omega
    · obtain ⟨_, hfrom⟩ := arrayCopyFromLoop_spec s buf (sl.len / s) 0
        ((sl.mem.drop 0).take (sl.len / s * s)) helem hbound
      simp only [VSlice.copy_from, if_neg h1, arrayCopyFrom, if_neg h1]
      rw [hfrom, List.drop_zero]
      apply listOverwrite_take_absorb
      · have := Nat.div_mul_le_self sl.len s
        omega
      · rw [List.length_take]
        have h := Nat.mul_comm (sl.len / s) s
        omega
    · obtain ⟨hcnt, _⟩ := arrayCopyFromLoop_spec s buf (sl.len / s) 0
        ((sl.mem.drop 0).take (sl.len / s * s)) helem hbound
      simp only [VSlice.copy_from, if_neg h1, arrayCopyFrom, if_neg h1]
      rw [hcnt]

/-- Witness for C4 (amended): element size 2, 3-byte view `[10, 20, 30]`,
2-element buffer: exactly `2 * min(3 / 2, 2) = 2` bytes move. -/
theorem copy_to_from_moved_witness :
    (VSlice.copy_to ⟨4096, [10, 20, 30], 0⟩ 2 [[0, 0], [0, 0]]).1.flatten =
      [10, 20, 30].take (2 * min (3 / 2) 2) ++
        ([[0, 0], [0, 0]] : List (List Nat)).flatten.drop (2 * min (3 / 2) 2) :=
  (copy_to_from_moved ⟨4096, [10, 20, 30], 0⟩ 2 [[0, 0], [0, 0]]
    (by decide) (by decide)).1

/-! ## Copy-engine lemmas -/

theorem byteCopy_zero (dst src : Nat) (mem : Mem) : byteCopy dst src 0 mem = mem := by
  funext a
  simp only [byteCopy, Nat.add_zero]
  rw [if_neg (by omega)]

theorem byteCopy_compose (dst src n m k : Nat) (mem : Mem)
    (hdisj : dst + n ≤ src ∨ src + n ≤ dst) (hmk : m + k ≤ n) :
    byteCopy (dst + m) (src + m) k (byteCopy dst src m mem) =
      byteCopy dst src (m + k) mem := by
  funext a
  simp only [byteCopy]
  by_cases h1 : dst + m ≤ a ∧ a < dst + m + k
  · rw [if_pos h1, if_neg (by omega), if_pos (by omega)]
    congr 1
    omega
  · rw [if_neg h1]
    by_cases h2 : dst ≤ a ∧ a < dst + m
    · rw [if_pos h2, if_pos (by omega)]
    · rw [if_neg h2, if_neg (by omega)]

theorem copy_single_eq_byteCopy (minAlign : Nat)
    (hA : minAlign = 1 ∨ minAlign = 2 ∨ minAlign = 4 ∨ minAlign = 8)
    (src dst : Nat) (mem : Mem) :
    copy_single minAlign src dst mem = byteCopy dst src minAlign mem := by
  unfold copy_single
  rw [if_pos (by rcases hA with h | h | h | h <;> simp [h])]

theorem exists_common_testBit (n : Nat) :
    ∀ a, 0 < a → a < 2 ^ n →
      ∃ k, a.testBit k = true ∧ (2 ^ n - a).testBit k = true := by
  induction n with
  | zero =>
      intro a h1 h2
      omega
  | succ m ih =>
      intro a h1 h2
      have hp : 2 ^ (m + 1) = 2 ^ m * 2 := pow_succ 2 m
      by_cases hodd : a % 2 = 1
      · refine ⟨0, ?_, ?_⟩
        · simp [Nat.testBit_zero, hodd]
        · simp only [Nat.testBit_zero, decide_eq_true_eq]
          omega
      · have hpos : 0 < a / 2 := by omega
        have hlt : a / 2 < 2 ^ m := by omega
        obtain ⟨k, hk1, hk2⟩ := ih (a / 2) hpos hlt
        refine ⟨k + 1, ?_, ?_⟩
        · rw [Nat.testBit_succ]
          exact hk1
        · rw [Nat.testBit_succ,
            show (2 ^ (m + 1) - a) / 2 = 2 ^ m - a / 2 by omega]
          exact hk2

theorem alignment_pos (a : Nat) (h1 : 0 < a) (h2 : a < 2 ^ 64) : 0 < alignment a := by
  unfold alignment
  rw [Nat.mod_eq_of_lt (by omega : 2 ^ 64 - a < 2 ^ 64)]
  obtain ⟨k, hk1, hk2⟩ := exists_common_testBit 64 a h1 h2
  by_contra hzero
  have h0 : a &&& (2 ^ 64 - a) = 0 := by omega
  have hbit := Nat.testBit_land a (2 ^ 64 - a) k
  rw [h0, hk1, hk2, Nat.zero_testBit] at hbit
  simp at hbit

theorem copyLoop_spec (minAlign : Nat)
    (hA : minAlign = 1 ∨ minAlign = 2 ∨ minAlign = 4 ∨ minAlign = 8) :
    ∀ st : CopyState,
      (st.dst + st.left ≤ st.src ∨ st.src + st.left ≤ st.dst) →
      (copyLoop minAlign st).left = st.left % minAlign ∧
      (copyLoop minAlign st).mem =
        byteCopy st.dst st.src (st.left - st.left % minAlign) st.mem ∧
      ((copyLoop minAlign st).left ≠ 0 →
        (copyLoop minAlign st).dst = st.dst + (st.left - st.left % minAlign) ∧
        (copyLoop minAlign st).src = st.src + (st.left - st.left % minAlign)) := by
  have hpos : 0 < minAlign := by rcases hA with h | h | h | h <;> omega
  suffices H : ∀ (n : Nat) (st : CopyState), st.left ≤ n →
      (st.dst + st.left ≤ st.src ∨ st.src + st.left ≤ st.dst) →
      (copyLoop minAlign st).left = st.left % minAlign ∧
      (copyLoop minAlign st).mem =
        byteCopy st.dst st.src (st.left - st.left % minAlign) st.mem ∧
      ((copyLoop minAlign st).left ≠ 0 →
        (copyLoop minAlign st).dst = st.dst + (st.left - st.left % minAlign) ∧
        (copyLoop minAlign st).src = st.src + (st.left - st.left % minAlign)) by
    intro st hdisj
    exact H st.left st (Nat.le_refl _) hdisj
  intro n
  induction n with
  | zero =>
      intro st hle hdisj
      have h0 : st.left = 0 := by omega
      have hret : copyLoop minAlign st = st := by
        rw [copyLoop, dif_neg (by omega : ¬ minAlign = 0), dif_pos (by omega)]
      rw [hret, h0]
      exact ⟨(Nat.zero_mod _).symm, by rw [Nat.zero_mod, Nat.sub_zero, byteCopy_zero],
        fun hne => absurd rfl hne⟩
  | succ n ih =>
      intro st hle hdisj
      by_cases hlt : st.left < minAlign
      · have hret : copyLoop minAlign st = st := by
          rw [copyLoop, dif_neg (by omega : ¬ minAlign = 0), dif_pos hlt]
        have hmod : st.left % minAlign = st.left := Nat.mod_eq_of_lt hlt
        rw [hret, hmod, Nat.sub_self, byteCopy_zero]
        exact ⟨rfl, rfl, fun _ => ⟨(Nat.add_zero _).symm, (Nat.add_zero _).symm⟩⟩
      · by_cases hz : st.left - minAlign = 0
        · have heq : st.left = minAlign := by omega
          have hret : copyLoop minAlign st =
              ⟨copy_single minAlign st.src st.dst st.mem, st.dst, st.src, 0⟩ := by
            rw [copyLoop, dif_neg (by omega : ¬ minAlign = 0), dif_neg hlt, if_pos hz]
          rw [hret, heq, Nat.mod_self, Nat.sub_zero]
          exact ⟨rfl, copy_single_eq_byteCopy minAlign hA st.src st.dst st.mem,
            fun hne => absurd rfl hne⟩
        · have hrec : copyLoop minAlign st =
              copyLoop minAlign ⟨copy_single minAlign st.src st.dst st.mem,
                st.dst + minAlign, st.src + minAlign, st.left - minAlign⟩ := by
            rw [copyLoop, dif_neg (by omega : ¬ minAlign = 0), dif_neg hlt, if_neg hz]
          have hdisj2 : (st.dst + minAlign) + (st.left - minAlign) ≤ st.src + minAlign ∨
              (st.src + minAlign) + (st.left - minAlign) ≤ st.dst + minAlign := by
            omega
          obtain ⟨ih1, ih2, ih3⟩ := ih
            ⟨copy_single minAlign st.src st.dst st.mem,
              st.dst + minAlign, st.src + minAlign, st.left - minAlign⟩
            (by simp only []; omega) hdisj2
          simp only [] at ih1 ih2 ih3
          have hmodeq : (st.left - minAlign) % minAlign = st.left % minAlign := by
            conv_rhs => rw [show st.left = (st.left - minAlign) + minAlign by omega]
            rw [Nat.add_mod_right]
          have hmle : st.left % minAlign ≤ st.left - minAlign := by
            rw [← hmodeq]
            exact Nat.mod_le _ _
          refine ⟨?_, ?_, ?_⟩
          · rw [hrec, ih1, hmodeq]
          · have hcnt : minAlign + (st.left - minAlign - st.left % minAlign) =
                st.left - st.left % minAlign := by omega
            rw [hrec, ih2, hmodeq,
              copy_single_eq_byteCopy minAlign hA st.src st.dst st.mem,
              byteCopy_compose st.dst st.src st.left minAlign
                (st.left - minAlign - st.left % minAlign) st.mem hdisj (by omega),
              hcnt]
          · intro hne
            rw [hrec] at hne ⊢
            obtain ⟨hd, hs⟩ := ih3 (by rw [ih1, hmodeq] at hne ⊢; exact hne)
            rw [hd, hs, hmodeq]
            constructor <;> omega

/-- One `copy_aligned_slice(min_align)` invocation preserves the staging
invariant (some prefix of the transfer is done, cursors point past it),
and leaves `left` unchanged when skipped (`align < min_align`), reduced
mod `min_align` when run. -/
theorem copy_aligned_slice_stage (dst0 src0 total : Nat) (mem0 : Mem)
    (minAlign align : Nat)
    (hA : minAlign = 1 ∨ minAlign = 2 ∨ minAlign = 4 ∨ minAlign = 8)
    (hdisj : dst0 + total ≤ src0 ∨ src0 + total ≤ dst0)
    (st : CopyState)
    (hle : st.left ≤ total)
    (hmem : st.mem = byteCopy dst0 src0 (total - st.left) mem0)
    (hptr : st.left ≠ 0 →
      st.dst = dst0 + (total - st.left) ∧ st.src = src0 + (total - st.left)) :
    (copy_aligned_slice minAlign align st).left ≤ total ∧
    (copy_aligned_slice minAlign align st).mem =
      byteCopy dst0 src0 (total - (copy_aligned_slice minAlign align st).left) mem0 ∧
    ((copy_aligned_slice minAlign align st).left ≠ 0 →
      (copy_aligned_slice minAlign align st).dst =
        dst0 + (total - (copy_aligned_slice minAlign align st).left) ∧
      (copy_aligned_slice minAlign align st).src =
        src0 + (total - (copy_aligned_slice minAlign align st).left)) ∧
    (copy_aligned_slice minAlign align st).left =
      (if align < minAlign then st.left else st.left % minAlign) := by
  have hpos : 0 < minAlign := by rcases hA with h | h | h | h <;> omega
  unfold copy_aligned_slice
  by_cases hskip : align < minAlign
  · rw [if_pos hskip, if_pos hskip]
    exact ⟨hle, hmem, hptr, rfl⟩
  · rw [if_neg hskip, if_neg hskip]
    by_cases h0 : st.left = 0
    · have hret : copyLoop minAlign st = st := by
        rw [copyLoop, dif_neg (by omega : ¬ minAlign = 0), dif_pos (by omega)]
      rw [hret]
      exact ⟨hle, hmem, hptr, by rw [h0, Nat.zero_mod]⟩
    · obtain ⟨hd, hs⟩ := hptr h0
      have hdisj' : st.dst + st.left ≤ st.src ∨ st.src + st.left ≤ st.dst := by
        rcases hdisj with h | h
        · left; omega
        · right; omega
      obtain ⟨l1, l2, l3⟩ := copyLoop_spec minAlign hA st hdisj'
      have hr : st.left % minAlign ≤ st.left := Nat.mod_le _ _
      refine ⟨by rw [l1]; omega, ?_, ?_, l1⟩
      · have hcnt : (total - st.left) + (st.left - st.left % minAlign) =
            total - st.left % minAlign := by omega
        rw [l2, hmem, hd, hs,
          byteCopy_compose dst0 src0 total (total - st.left)
            (st.left - st.left % minAlign) mem0 hdisj (by omega),
          hcnt, l1]
      · intro hne
        obtain ⟨pd, ps⟩ := l3 hne
        rw [pd, ps, hd, hs, l1]
        constructor <;> omega

/-- C3: under the precondition that the two `total`-byte ranges are valid
(non-null, no address-space wraparound) and non-overlapping,
`copy_slice(dst, src, total)` returns exactly `total` and its resulting
memory is the full byte-for-byte copy of `[src, src+total)` onto
`[dst, dst+total)` with all other addresses untouched — for `total`
above one machine word via the `copy_nonoverlapping` bulk path, otherwise
via the terminating descending-unit volatile loop (8/4/2/1, bounded by
the common alignment), which therefore also moves all `total` bytes. -/
theorem copy_slice_correct (dst src total : Nat) (mem : Mem)
    (hsrc0 : 0 < src) (hsrcB : src + total ≤ 2 ^ 64)
    (hdst0 : 0 < dst) (hdstB : dst + total ≤ 2 ^ 64)
    (hdisj : dst + total ≤ src ∨ src + total ≤ dst) :
    copy_slice dst src total mem = (byteCopy dst src total mem, total) := by
  unfold copy_slice
  by_cases hsz : total ≤ 8
  · rw [if_pos hsz]
    simp only [copy_slice_volatile]
    obtain ⟨a1, b1, c1, d1⟩ := copy_aligned_slice_stage dst src total mem 8
      (min (alignment src) (alignment dst)) (by omega) hdisj
      ⟨mem, dst, src, total⟩ (Nat.le_refl _)
      (by show mem = byteCopy dst src (total - total) mem
          rw [Nat.sub_self, byteCopy_zero])
      (fun _ => ⟨by show dst = dst + (total - total); rw [Nat.sub_self, Nat.add_zero],
        by show src = src + (total - total); rw [Nat.sub_self, Nat.add_zero]⟩)
    obtain ⟨a2, b2, c2, d2⟩ := copy_aligned_slice_stage dst src total mem 4
      (min (alignment src) (alignment dst)) (by omega) hdisj _ a1 b1 c1
    obtain ⟨a3, b3, c3, d3⟩ := copy_aligned_slice_stage dst src total mem 2
      (min (alignment src) (alignment dst)) (by omega) hdisj _ a2 b2 c2
    obtain ⟨a4, b4, c4, d4⟩ := copy_aligned_slice_stage dst src total mem 1
      (min (alignment src) (alignment dst)) (by omega) hdisj _ a3 b3 c3
    have hfin : (copy_aligned_slice 1 (min (alignment src) (alignment dst))
        (copy_aligned_slice 2 (min (alignment src) (alignment dst))
          (copy_aligned_slice 4 (min (alignment src) (alignment dst))
            (copy_aligned_slice 8 (min (alignment src) (alignment dst))
              ⟨mem, dst, src, total⟩)))).left = 0 := by
      by_cases htot : total = 0
      · omega
      · have hal1 := alignment_pos src hsrc0 (by omega)
        have hal2 := alignment_pos dst hdst0 (by omega)
        rw [d4, if_neg (by omega), Nat.mod_one]
    rw [b4, hfin, Nat.sub_zero]
  · rw [if_neg hsz]

/-- Witness for C3: copying 5 bytes from address 1001 to address 2000
yields exactly the prefix-copied memory and returns 5. -/
theorem copy_slice_correct_witness :
    copy_slice 2000 1001 5 (fun a => a % 251) =
      (byteCopy 2000 1001 5 (fun a => a % 251), 5) :=
  copy_slice_correct 2000 1001 5 (fun a => a % 251)
    (by decide) (by decide) (by decide) (by decide) (by decide)

end VmMemory
